import Mathlib

/-!
Shallow embedding of `cmd/honeyrag/main.go` (the HoneyRAG provisioning
runner): the Bubble Tea model and its `Update` state machine, the health
monitor (`isHealthy` polling via `waitForHealthy`), the per-step action
functions (`uvSync`, `checkInstallOllama`, `startOllama`,
`pullEmbeddingModel`, `startVLLM`, `startLightRAG`, `startAgent`), the
log-tail helper `readLastLines`, and the `View` projection.

External effects (process execution, HTTP probes, clocks, file I/O) are
modelled as explicit environments: a command invocation becomes a value of
`CmdResult`, the k-th health probe becomes `health k : Bool`, and so on.
Terminal styling (`lipgloss`) only wraps text in colour escapes; it is
modelled as the identity on the rendered text.
-/

namespace HoneyRAG

/-- Step status; in `main.go` these are the strings `"pending"`,
`"running"`, `"done"`, `"error"` assigned to `Step.Status`. -/
inductive Status where
  | pending
  | running
  | done
  | error
deriving DecidableEq, Repr

/-- `Step` from `main.go` (the `Info` field is never read and is omitted;
`Name`/`Description` are the display strings). -/
structure Step where
  name : String
  description : String
  status : Status
  logLines : List String
deriving DecidableEq, Repr

/-- The per-service TCP ports resolved by `initialModel` from the
environment (`OLLAMA_PORT`, `VLLM_PORT`, `LIGHTRAG_PORT`, `AGNO_PORT`),
stored in the Go code as the map `m.ports`. -/
structure Ports where
  ollama : String
  vllm : String
  lightrag : String
  agno : String
deriving DecidableEq, Repr

/-- The vLLM configuration resolved by `initialModel` (`VLLM_MODEL`,
`VLLM_GPU_MEMORY_UTILIZATION`, `VLLM_MAX_MODEL_LEN`), the Go map
`m.config`. -/
structure Config where
  model : String
  gpuUtil : String
  maxLen : String
deriving DecidableEq, Repr

/-- The Bubble Tea `Model` of `main.go` restricted to the state the
runner logic reads and writes: `steps`, `currentStep`, `done`, `err`,
`ports`, `config`.  The purely presentational or I/O fields (`spinner`,
`baseDir`, `logsDir`, `quitting`, `logMutex`, `processes`) are handled
outside the state machine (`processes` is never even appended to in the
source). -/
structure Model where
  steps : List Step
  currentStep : Nat
  done : Bool
  err : Option String
  ports : Ports
  config : Config
deriving DecidableEq, Repr

/-- The messages consumed by `Model.Update`: `stepDoneMsg`,
`stepErrorMsg`, `logUpdateMsg`, and the spinner `TickMsg` (whose state
effect on the runner is nil). -/
inductive Msg where
  | stepDone (index : Nat)
  | stepError (index : Nat) (cause : String)
  | logUpdate (index : Nat) (line : String)
  | tick
deriving DecidableEq, Repr

/-- `{ s with status := st }`: the `m.steps[i].Status = ...` assignments. -/
def setStat (st : Status) (s : Step) : Step := { s with status := st }

/-- In-place update of the i-th element of the step slice, as the Go
assignments `m.steps[i].Status = ...` do; out-of-range indices leave the
list unchanged (such indices never occur in valid runs). -/
def modifyStep : List Step → Nat → (Step → Step) → List Step
  | [], _, _ => []
  | s :: rest, 0, f => f s :: rest
  | s :: rest, Nat.succ i, f => s :: modifyStep rest i f

/-- The `logUpdateMsg` branch of `Model.Update`: append the line, and if
the buffer now exceeds 3 lines keep only the last 3
(`step.LogLines = step.LogLines[len(step.LogLines)-3:]`). -/
def appendLog (ls : List String) (line : String) : List String :=
  let ls' := ls ++ [line]
  if ls'.length > 3 then ls'.drop (ls'.length - 3) else ls'

/-- `Model.Update` from `main.go`, state effect only (the returned
`tea.Cmd` — which next action is dispatched — is captured separately by
the validity predicate `validMsg` and the run harness `runStep1`):

* `stepDoneMsg`: mark the indexed step done, advance `currentStep`; if
  past the end set `done`, otherwise mark the new current step running
  (and dispatch its action).
* `stepErrorMsg`: mark the indexed step error and record the cause in
  `m.err`; nothing further is dispatched.
* `logUpdateMsg`: append to the step's bounded log buffer.
* spinner tick / key input: no runner-state effect. -/
def update (m : Model) (msg : Msg) : Model :=
  match msg with
  | .stepDone index =>
      let steps := modifyStep m.steps index (setStat .done)
      let current := m.currentStep + 1
      if current ≥ steps.length then
        { m with steps := steps, currentStep := current, done := true }
      else
        { m with steps := modifyStep steps current (setStat .running),
                 currentStep := current }
  | .stepError index cause =>
      { m with steps := modifyStep m.steps index (setStat .error),
               err := some cause }
  | .logUpdate index line =>
      { m with steps := modifyStep m.steps index
                 (fun s => { s with logLines := appendLog s.logLines line }) }
  | .tick => m

/-- The dispatch discipline of the runner: a `stepDoneMsg`/`stepErrorMsg`
can only be produced by the single in-flight action, which is the one
dispatched for `currentStep` (by `Init` for step 0, by the `stepDoneMsg`
branch for later steps); after overall completion or a fatal error no
action is in flight.  Log lines and ticks may arrive at any time. -/
def validMsg (m : Model) : Msg → Bool
  | .stepDone index => index == m.currentStep && m.err.isNone && !m.done
  | .stepError index _ => index == m.currentStep && m.err.isNone && !m.done
  | .logUpdate index _ => Nat.blt index m.steps.length
  | .tick => true

/-- A whole event sequence consistent with the dispatch discipline. -/
def validTrace : Model → List Msg → Bool
  | _, [] => true
  | m, msg :: rest => validMsg m msg && validTrace (update m msg) rest

/-- Folding `Update` over an event sequence. -/
def runTrace (m : Model) (tr : List Msg) : Model := tr.foldl update m

/-- The seven steps created by `initialModel`, all `"pending"`. -/
def initialSteps : List Step :=
  [ { name := "Python Deps", description := "Sync Python dependencies (uv sync)",
      status := .pending, logLines := [] },
    { name := "Ollama", description := "Check/install Ollama",
      status := .pending, logLines := [] },
    { name := "Ollama Server", description := "Start Ollama server",
      status := .pending, logLines := [] },
    { name := "Embedding Model", description := "Pull nomic-embed-text",
      status := .pending, logLines := [] },
    { name := "vLLM Server", description := "Start vLLM",
      status := .pending, logLines := [] },
    { name := "LightRAG", description := "Start RAG pipeline",
      status := .pending, logLines := [] },
    { name := "HoneyRAG Agent", description := "Start web agent",
      status := .pending, logLines := [] } ]

/-- The port defaults of `initialModel` (used when the corresponding
environment variable is unset). -/
def defaultPorts : Ports :=
  { ollama := "11434", vllm := "8000", lightrag := "9621", agno := "8081" }

/-- The config defaults of `initialModel`. -/
def defaultConfig : Config :=
  { model := "Qwen/Qwen2.5-1.5B-Instruct", gpuUtil := "0.8", maxLen := "2048" }

/-- `initialModel` for arbitrary resolved ports/config: all seven steps
`pending`, `currentStep = 0`, no error, not done.  Note `Model.Init`
(`tea.Batch(m.spinner.Tick, m.runStep(0))`) dispatches step 0's action
without changing any state — in particular step 0 is NOT set to
`running`. -/
def initialModelWith (p : Ports) (c : Config) : Model :=
  { steps := initialSteps, currentStep := 0, done := false, err := none,
    ports := p, config := c }

/-- `initialModel` with the default ports and config. -/
def initialModel : Model := initialModelWith defaultPorts defaultConfig

/-- Runner states reachable from startup by events consistent with the
dispatch discipline. -/
inductive Reachable : Model → Prop where
  | init (p : Ports) (c : Config) : Reachable (initialModelWith p c)
  | step {m : Model} {msg : Msg} :
      Reachable m → validMsg m msg = true → Reachable (update m msg)

/-- The status of step `i`, `none` if `i` is out of range. -/
def statusOf (m : Model) (i : Nat) : Option Status :=
  (m.steps.get? i).map Step.status

/-! ### String utilities

`strings.Contains` and the string concatenations of `fmt.Errorf` /
`fmt.Sprintf`, modelled over the character lists of Lean strings. -/

/-- Does `pat` occur at the very start of `s`? -/
def charsStartWith : List Char → List Char → Bool
  | _, [] => true
  | [], _ :: _ => false
  | c :: cs, p :: ps => c == p && charsStartWith cs ps

/-- Does `pat` occur anywhere in `s`?  (`strings.Contains`.) -/
def charsContain : List Char → List Char → Bool
  | [], pat => charsStartWith [] pat
  | c :: rest, pat => charsStartWith (c :: rest) pat || charsContain rest pat

/-- `strings.Contains s pat` on Lean strings. -/
def strContains (s pat : String) : Bool := charsContain s.data pat.data

/-- The inner loop of `readLastLines`: append a scanned line; if the
buffer exceeds `n` lines drop the first (`lines = lines[1:]`). -/
def lastLinesStep (n : Nat) (acc : List String) (line : String) : List String :=
  let acc' := acc ++ [line]
  if acc'.length > n then acc'.drop 1 else acc'

/-- `readLastLines(filePath, n)` from `main.go`, on the file's line list:
scan all lines keeping a buffer of at most `n`, join with newlines.
(The could-not-open branch is not relevant here: the callers read a log
file they created themselves earlier in the same action.) -/
def readLastLines (lines : List String) (n : Nat) : String :=
  String.intercalate "\n" (lines.foldl (lastLinesStep n) [])

/-! ### Health monitor -/

/-- The polling loop of `waitForHealthy(url, timeoutSeconds)`, with the
outcome of each `isHealthy(url)` call supplied by the oracle
`health : Nat → Bool` (`health k` is the k-th probe, counting from 0).
Returns the boolean result paired with the total number of probes made;
`start` is the index of the next probe, `fuel` the remaining loop
iterations. -/
def waitForHealthyAux (health : Nat → Bool) : Nat → Nat → Bool × Nat
  | _, 0 => (false, 0)
  | start, Nat.succ fuel =>
      if health start then (true, 1)
      else
        let r := waitForHealthyAux health (start + 1) fuel
        (r.1, r.2 + 1)

/-- `waitForHealthy(url, timeoutSeconds)`: up to `timeoutSeconds` probes,
one per second, stopping at the first success.  First component: the
boolean the Go function returns; second: how many `isHealthy` calls were
made. -/
def waitForHealthy (health : Nat → Bool) (timeoutSeconds : Nat) : Bool × Nat :=
  waitForHealthyAux health 0 timeoutSeconds

/-! ### Per-step actions

Each action runs external commands; a command execution is modelled as a
`CmdResult` supplied by the environment. -/

/-- Result of one external command run: `ok output` when the command
exits 0 (`err == nil` in Go), `fail errText output` otherwise, carrying
the `error`'s text and the captured (combined) output. -/
inductive CmdResult where
  | ok (output : String)
  | fail (errText : String) (output : String)
deriving DecidableEq, Repr

/-- Outcome of a step action as seen by the runner: `stepDoneMsg` or
`stepErrorMsg` with its cause message. -/
inductive StepOutcome where
  | completed
  | failed (cause : String)
deriving DecidableEq, Repr

/-- The fixed interpreter preference order of `uvSync`
(`pythonVersions := []string{"3.12", "3.13", "3.11", ""}`; `""` means no
`--python` flag). -/
def pythonVersions : List String := ["3.12", "3.13", "3.11", ""]

/-- Result of `uvSync`: its outcome and the list of versions it actually
attempted, in order. -/
structure UvResult where
  outcome : StepOutcome
  tried : List String
deriving DecidableEq, Repr

/-- The loop of `uvSync`: try each version in order, returning on the
first success; on each failure remember the error and output; if all
fail, report `uv sync failed: <lastErr>\n<lastOutput>`. -/
def uvSyncAux (attempt : String → CmdResult) :
    List String → List String → String → String → UvResult
  | [], tried, lastErr, lastOut =>
      ⟨.failed ("uv sync failed: " ++ lastErr ++ "\n" ++ lastOut), tried⟩
  | v :: rest, tried, _, _ =>
      match attempt v with
      | .ok _ => ⟨.completed, tried ++ [v]⟩
      | .fail e out => uvSyncAux attempt rest (tried ++ [v]) e out

/-- `Model.uvSync` (step 0): try `uv sync --python <v>` for each version
in `pythonVersions` (plain `uv sync` for `""`), in order. -/
def uvSync (attempt : String → CmdResult) : UvResult :=
  uvSyncAux attempt pythonVersions [] "" ""

/-- `Model.checkInstallOllama` (step 1): if `ollama` is on the PATH,
done; otherwise run the install script and fail with its combined output
on non-zero exit. -/
def checkInstallOllama (present : Bool) (install : CmdResult) : StepOutcome :=
  if present then .completed
  else
    match install with
    | .ok _ => .completed
    | .fail _ out => .failed ("failed to install Ollama: " ++ out)

/-- One `ollama list` poll of `pullEmbeddingModel` hits iff the command
succeeded and its output contains the marker `"nomic-embed-text"`. -/
def listPollHit (r : CmdResult) : Bool :=
  match r with
  | .ok out => strContains out "nomic-embed-text"
  | .fail _ _ => false

/-- Result of `pullEmbeddingModel`: its outcome, the number of
`ollama list` polls made, and how many times `ollama pull` ran. -/
structure PullResult where
  outcome : StepOutcome
  polls : Nat
  fetchRuns : Nat
deriving DecidableEq, Repr

/-- `Model.pullEmbeddingModel` (step 3): after a 2-second settle delay,
poll `ollama list` up to 3 times (1-second delay between polls) for the
marker; on a hit, done without fetching; otherwise run
`ollama pull nomic-embed-text` once, failing with
`failed to pull: <err> - <output>` on non-zero exit.  `query k` is the
k-th `ollama list` result, `fetch` the `ollama pull` result. -/
def pullEmbeddingModel (query : Nat → CmdResult) (fetch : CmdResult) : PullResult :=
  if listPollHit (query 0) then ⟨.completed, 1, 0⟩
  else if listPollHit (query 1) then ⟨.completed, 2, 0⟩
  else if listPollHit (query 2) then ⟨.completed, 3, 0⟩
  else
    match fetch with
    | .ok _ => ⟨.completed, 3, 1⟩
    | .fail e out => ⟨.failed ("failed to pull: " ++ e ++ " - " ++ out), 3, 1⟩

/-- Environment of one service-launch action (`startOllama`,
`startVLLM`, `startLightRAG`, `startAgent`):

* `initialHealthy`: the result of the `isHealthy(healthURL)` probe made
  before anything is spawned;
* `logCreateErr`: error of `os.Create` for the service's log file, if any;
* `spawnErr`: error of `cmd.Start()`, if any;
* `health`: the probe oracle for the subsequent `waitForHealthy` loop;
* `logLines`: the lines of the service's log file at the moment
  `readLastLines` reads it (after the health wait timed out). -/
structure LaunchEnv where
  initialHealthy : Bool
  logCreateErr : Option String
  spawnErr : Option String
  health : Nat → Bool
  logLines : List String

/-- Result of a launch action: its outcome and how many times
`cmd.Start()` was invoked (0 or 1). -/
structure LaunchResult where
  outcome : StepOutcome
  startCalls : Nat
deriving DecidableEq, Repr

/-- `Model.startOllama` (step 2): short-circuit when already healthy;
otherwise create the log file, spawn `ollama serve`, and wait up to 30
probes for health.  Note the timeout message is the fixed string
`"Ollama failed to start (timeout)"` — unlike the other launch steps it
does not include any captured log output. -/
def startOllama (e : LaunchEnv) : LaunchResult :=
  if e.initialHealthy then ⟨.completed, 0⟩
  else
    match e.logCreateErr with
    | some err => ⟨.failed ("failed to create log file: " ++ err), 0⟩
    | none =>
      match e.spawnErr with
      | some err => ⟨.failed ("failed to start Ollama: " ++ err), 1⟩
      | none =>
        if (waitForHealthy e.health 30).1 then ⟨.completed, 1⟩
        else ⟨.failed "Ollama failed to start (timeout)", 1⟩

/-- `Model.startVLLM` (step 4): short-circuit when already healthy;
otherwise spawn `uv run vllm serve ...` and wait up to 300 probes; on
timeout fail with `vLLM timeout. Last logs:\n` followed by the last 5
captured log lines. -/
def startVLLM (e : LaunchEnv) : LaunchResult :=
  if e.initialHealthy then ⟨.completed, 0⟩
  else
    match e.logCreateErr with
    | some err => ⟨.failed ("failed to create log file: " ++ err), 0⟩
    | none =>
      match e.spawnErr with
      | some err => ⟨.failed ("failed to start vLLM: " ++ err), 1⟩
      | none =>
        if (waitForHealthy e.health 300).1 then ⟨.completed, 1⟩
        else ⟨.failed ("vLLM timeout. Last logs:\n" ++ readLastLines e.logLines 5), 1⟩

/-- `Model.startLightRAG` (step 5): like `startVLLM` with
`uv run lightrag-server`, a 60-probe budget, and timeout message
`LightRAG timeout. Last logs:\n` + last 5 log lines. -/
def startLightRAG (e : LaunchEnv) : LaunchResult :=
  if e.initialHealthy then ⟨.completed, 0⟩
  else
    match e.logCreateErr with
    | some err => ⟨.failed ("failed to create log file: " ++ err), 0⟩
    | none =>
      match e.spawnErr with
      | some err => ⟨.failed ("failed to start LightRAG: " ++ err), 1⟩
      | none =>
        if (waitForHealthy e.health 60).1 then ⟨.completed, 1⟩
        else ⟨.failed ("LightRAG timeout. Last logs:\n" ++ readLastLines e.logLines 5), 1⟩

/-- `Model.startAgent` (step 6): like `startVLLM` with `uv run uvicorn
app:app ...`, a 30-probe budget, and timeout message
`Agent timeout. Last logs:\n` + last 5 log lines. -/
def startAgent (e : LaunchEnv) : LaunchResult :=
  if e.initialHealthy then ⟨.completed, 0⟩
  else
    match e.logCreateErr with
    | some err => ⟨.failed ("failed to create log file: " ++ err), 0⟩
    | none =>
      match e.spawnErr with
      | some err => ⟨.failed ("failed to start Agent: " ++ err), 1⟩
      | none =>
        if (waitForHealthy e.health 30).1 then ⟨.completed, 1⟩
        else ⟨.failed ("Agent timeout. Last logs:\n" ++ readLastLines e.logLines 5), 1⟩

/-! ### Whole-run composition

`Model.runStep` maps a step index to its action; composing it with the
`Update` loop gives the complete run of the tool against a fixed
environment. -/

/-- The external world for one whole run: every command result and probe
outcome each action can observe. -/
structure RunEnv where
  uvAttempt : String → CmdResult
  ollamaPresent : Bool
  installResult : CmdResult
  ollamaEnv : LaunchEnv
  listQuery : Nat → CmdResult
  fetchResult : CmdResult
  vllmEnv : LaunchEnv
  lightragEnv : LaunchEnv
  agentEnv : LaunchEnv

/-- `Model.runStep(index)`: the outcome of the indexed action together
with the number of `cmd.Start()` service spawns it performed (the
default branch of the Go switch returns `stepDoneMsg`). -/
def actionResult (env : RunEnv) : Nat → StepOutcome × Nat
  | 0 => ((uvSync env.uvAttempt).outcome, 0)
  | 1 => (checkInstallOllama env.ollamaPresent env.installResult, 0)
  | 2 => ((startOllama env.ollamaEnv).outcome, (startOllama env.ollamaEnv).startCalls)
  | 3 => ((pullEmbeddingModel env.listQuery env.fetchResult).outcome, 0)
  | 4 => ((startVLLM env.vllmEnv).outcome, (startVLLM env.vllmEnv).startCalls)
  | 5 => ((startLightRAG env.lightragEnv).outcome, (startLightRAG env.lightragEnv).startCalls)
  | 6 => ((startAgent env.agentEnv).outcome, (startAgent env.agentEnv).startCalls)
  | _ => (.completed, 0)

/-- The message an action's outcome delivers back to `Update`. -/
def outcomeMsg (i : Nat) : StepOutcome → Msg
  | .completed => .stepDone i
  | .failed c => .stepError i c

/-- One dispatch-and-handle round of the run: if the run is still live,
execute the current step's action and feed its message to `Update`,
accumulating the spawn count. -/
def runStep1 (env : RunEnv) (st : Model × Nat) : Model × Nat :=
  if st.1.done || st.1.err.isSome then st
  else
    let r := actionResult env st.1.currentStep
    (update st.1 (outcomeMsg st.1.currentStep r.1), st.2 + r.2)

/-- A complete run: seven dispatch rounds from the initial model (a run
that errors early just stays put in the remaining rounds).  Returns the
final model and the total number of service spawns. -/
def runAll (env : RunEnv) : Model × Nat :=
  runStep1 env (runStep1 env (runStep1 env (runStep1 env
    (runStep1 env (runStep1 env (runStep1 env (initialModel, 0)))))))

/-! ### Display projection (`Model.View`)

Styling (`lipgloss.Style.Render`) only wraps its argument in colour
escape sequences and is modelled as the identity.  The glyph literals
below are the exact characters stored in the source file (the file
carries them in a double-encoded form; they are reproduced
codepoint-for-codepoint).  Go truncates log lines at 70 *bytes*; the
embedding counts characters, which agrees on the ASCII log output
involved. -/

/-- The honey glyph of the title and endpoint banner. -/
def honeyGlyph : String := "üçØ"

/-- Icon for a step line, by status; a running step shows the current
spinner frame. -/
def statusIcon (spinnerFrame : String) : Status → String
  | .pending => "‚óã"
  | .running => spinnerFrame
  | .done => "‚óè"
  | .error => "‚úó"

/-- Status text for a step line: the description, with `"..."` appended
while running. -/
def statusText (s : Step) : String :=
  match s.status with
  | .running => s.description ++ "..."
  | _ => s.description

/-- Log-line truncation: over 70, keep the first 70 and add `"..."`. -/
def truncLine (line : String) : String :=
  if line.length > 70 then line.take 70 ++ "..." else line

/-- The per-step placeholder hints shown while a step runs with no
captured output yet. -/
def stepHint : Nat → String
  | 0 => "installing dependencies..."
  | 1 => "checking installation..."
  | 2 => "waiting for server..."
  | 3 => "pulling model (~274MB)..."
  | 4 => "loading model to GPU..."
  | 5 => "initializing RAG..."
  | 6 => "starting web UI..."
  | _ => ""

/-- The text block the step loop of `View` emits for step `i`. -/
def viewStepBlock (cfg : Config) (spinnerFrame : String) (i : Nat) (s : Step) : String :=
  ("  " ++ statusIcon spinnerFrame s.status ++ " " ++ s.name ++ ": " ++ statusText s) ++ "\n"
  ++ (if i == 4 && (s.status == .running || s.status == .done) then
        "    Model: " ++ cfg.model ++ " | GPU: " ++ cfg.gpuUtil ++
          " | Context: " ++ cfg.maxLen ++ "\n"
      else "")
  ++ (if s.logLines.length > 0 && s.status == .running then
        String.join (s.logLines.map (fun l => "    ‚îÇ " ++ truncLine l ++ "\n"))
      else "")
  ++ (if s.status == .running && s.logLines.length == 0 then
        (if stepHint i == "" then ""
         else "    ‚îî‚îÄ " ++ stepHint i ++ "\n")
      else "")

/-- `http://localhost:<port>`, the endpoint URL shown for a service. -/
def serviceURL (port : String) : String := "http://localhost:" ++ port

/-- The overall-completion footer of `View`: the success banner and the
endpoint list.  The source lists exactly three endpoints — agent,
LightRAG, vLLM; no URL is printed for the Ollama embedding server.
(Written right-associated so substring reasoning can peel it.) -/
def doneFooter (p : Ports) : String :=
  "‚ú® All services running!" ++
  ("\n\n" ++
  ("  " ++
  (honeyGlyph ++
  (" Sweet endpoints ready:" ++
  ("\n\n" ++
  ("     Agent UI:     " ++
  (serviceURL p.agno ++
  ("\n" ++
  ("     LightRAG UI:  " ++
  (serviceURL p.lightrag ++
  ("\n" ++
  ("     vLLM API:     " ++
  (serviceURL p.vllm ++
  ("\n" ++
  ("\n" ++
  "  Logs: logs/ | Press \u0027q\u0027 to stop all services")))))))))))))))

/-- The bottom section of `View`: fatal error text, completion footer,
or the in-progress hint (the error branch takes priority, as in the
source). -/
def viewFooter (m : Model) : String :=
  match m.err with
  | some e =>
      "Error: " ++ e ++ "\n\n" ++
        "Check logs/ folder for details. Press 'q' to quit."
  | none =>
      if m.done then doneFooter m.ports
      else "  Setting up... Press \u0027q\u0027 to cancel"

/-- `Model.View` with styling erased: title, one block per step, a blank
line, the footer, and a final newline.  `spinnerFrame` stands for
`m.spinner.View()`. -/
def view (m : Model) (spinnerFrame : String) : String :=
  ("\n" ++ honeyGlyph ++ " HoneyRAG - Local RAG Stack " ++ honeyGlyph) ++
  ("\n\n" ++
  (String.join (m.steps.enum.map (fun p => viewStepBlock m.config spinnerFrame p.1 p.2)) ++
  ("\n" ++
  (viewFooter m ++
  "\n"))))

/-! ### Basic lemmas about the step-slice update -/

theorem modifyStep_length (l : List Step) (i : Nat) (f : Step → Step) :
    (modifyStep l i f).length = l.length := by
  induction l generalizing i with
  | nil => rfl
  | cons s rest ih =>
    cases i with
    | zero => rfl
    | succ i => simp [modifyStep, ih i]

theorem modifyStep_get? (l : List Step) (i : Nat) (f : Step → Step) (j : Nat) :
    (modifyStep l i f).get? j = if i = j then (l.get? j).map f else l.get? j := by
  induction l generalizing i j with
  | nil =>
    cases i <;> cases j <;> simp [modifyStep]
  | cons s rest ih =>
    cases i with
    | zero => cases j <;> simp [modifyStep]
    | succ i =>
      cases j with
      | zero => simp [modifyStep]
      | succ j => simpa [modifyStep] using ih i j

theorem update_steps_length (m : Model) (msg : Msg) :
    (update m msg).steps.length = m.steps.length := by
  cases msg with
  | stepDone index =>
    simp only [update]
    split <;> simp [modifyStep_length]
  | stepError index cause => simp [update, modifyStep_length]
  | logUpdate index line => simp [update, modifyStep_length]
  | tick => rfl

theorem statusOf_logUpdate (m : Model) (i : Nat) (line : String) (j : Nat) :
    statusOf (update m (.logUpdate i line)) j = statusOf m j := by
  simp only [statusOf, update, modifyStep_get?]
  split
  · cases m.steps.get? j <;> rfl
  · rfl

theorem statusOf_stepError (m : Model) (i : Nat) (c : String) (j : Nat) :
    statusOf (update m (.stepError i c)) j
      = if i = j then (m.steps.get? j).map (fun _ => Status.error) else statusOf m j := by
  simp only [statusOf, update, modifyStep_get?]
  split
  · cases m.steps.get? j <;> rfl
  · rfl

/-! ### The runner invariant

Characterisation of the reachable runner states: a run is either in
progress (phase A), halted on a fatal error (phase B), or complete
(phase C). -/

/-- Every step before the current one is done. -/
def belowDone (m : Model) : Prop :=
  ∀ i, i < m.currentStep → statusOf m i = some .done

/-- Every step after the current one is still pending. -/
def abovePending (m : Model) : Prop :=
  ∀ i, m.currentStep < i → i < m.steps.length → statusOf m i = some .pending

/-- Phase A: run in progress.  The current step is `running` — except at
the very start (`currentStep = 0`), where `Init` dispatched step 0
without marking it running, so it is still `pending`. -/
def InvA (m : Model) : Prop :=
  m.done = false ∧ m.err = none ∧ m.currentStep < m.steps.length ∧
  belowDone m ∧ abovePending m ∧
  ((m.currentStep = 0 ∧ statusOf m 0 = some .pending) ∨
   (0 < m.currentStep ∧ statusOf m m.currentStep = some .running))

/-- Phase B: halted on a fatal error at the current step. -/
def InvB (m : Model) : Prop :=
  m.done = false ∧ (∃ c, m.err = some c) ∧ m.currentStep < m.steps.length ∧
  belowDone m ∧ abovePending m ∧ statusOf m m.currentStep = some .error

/-- Phase C: all steps done. -/
def InvC (m : Model) : Prop :=
  m.done = true ∧ m.err = none ∧ m.currentStep = m.steps.length ∧ belowDone m

/-- The full state invariant of the runner. -/
def Inv (m : Model) : Prop := InvA m ∨ InvB m ∨ InvC m

theorem inv_initial (p : Ports) (c : Config) : Inv (initialModelWith p c) := by
  left
  refine ⟨rfl, rfl, by simp [initialModelWith, initialSteps], ?_, ?_, Or.inl ⟨rfl, rfl⟩⟩
  · intro i hi
    exact absurd hi (by simp [initialModelWith])
  · intro i h0 h7
    have h7' : i < 7 := by simpa [initialModelWith, initialSteps] using h7
    interval_cases i <;> rfl

theorem inv_update (m : Model) (msg : Msg) (hI : Inv m)
    (hv : validMsg m msg = true) : Inv (update m msg) := by
  cases msg with
  | tick => simpa [update] using hI
  | logUpdate index line =>
    rcases hI with hA | hB | hC
    · exact Or.inl ⟨by simp [update, hA.1], by simp [update, hA.2.1],
        by rw [update_steps_length]; exact hA.2.2.1,
        fun i hi => by rw [show (update m (.logUpdate index line)).currentStep = m.currentStep from rfl] at hi
                       rw [statusOf_logUpdate]; exact hA.2.2.2.1 i hi,
        fun i h1 h2 => by rw [statusOf_logUpdate]
                          exact hA.2.2.2.2.1 i h1 (by rwa [update_steps_length] at h2),
        by rcases hA.2.2.2.2.2 with ⟨h0, hs⟩ | ⟨h0, hs⟩
           · exact Or.inl ⟨h0, by rwa [statusOf_logUpdate]⟩
           · exact Or.inr ⟨h0, by rw [show (update m (.logUpdate index line)).currentStep = m.currentStep from rfl, statusOf_logUpdate]; exact hs⟩⟩
    · refine Or.inr (Or.inl ⟨by simp [update, hB.1], ?_, ?_, ?_, ?_, ?_⟩)
      · rcases hB.2.1 with ⟨cse, hc⟩; exact ⟨cse, by simp [update, hc]⟩
      · rw [update_steps_length]; exact hB.2.2.1
      · intro i hi
        rw [statusOf_logUpdate]; exact hB.2.2.2.1 i hi
      · intro i h1 h2
        rw [statusOf_logUpdate]
        exact hB.2.2.2.2.1 i h1 (by rwa [update_steps_length] at h2)
      · rw [show (update m (.logUpdate index line)).currentStep = m.currentStep from rfl, statusOf_logUpdate]
        exact hB.2.2.2.2.2
    · refine Or.inr (Or.inr ⟨by simp [update, hC.1], by simp [update, hC.2.1], ?_, ?_⟩)
      · rw [update_steps_length]
        exact hC.2.2.1
      · intro i hi
        rw [statusOf_logUpdate]; exact hC.2.2.2 i hi
  | stepError index cse =>
    simp only [validMsg, Bool.and_eq_true, beq_iff_eq, Option.isNone_iff_eq_none,
      Bool.not_eq_true'] at hv
    obtain ⟨⟨hidx, herr⟩, hdone⟩ := hv
    rcases hI with hA | hB | hC
    · refine Or.inr (Or.inl ⟨by simp [update, hA.1], ⟨cse, by simp [update]⟩, ?_, ?_, ?_, ?_⟩)
      · rw [update_steps_length]; exact hA.2.2.1
      · intro i hi
        rw [show (update m (.stepError index cse)).currentStep = m.currentStep from rfl] at hi
        rw [statusOf_stepError]
        have : ¬ index = i := by omega
        rw [if_neg this]; exact hA.2.2.2.1 i hi
      · intro i h1 h2
        rw [update_steps_length] at h2
        rw [show (update m (.stepError index cse)).currentStep = m.currentStep from rfl] at h1
        rw [statusOf_stepError]
        have : ¬ index = i := by omega
        rw [if_neg this]; exact hA.2.2.2.2.1 i h1 h2
      · rw [show (update m (.stepError index cse)).currentStep = m.currentStep from rfl,
          statusOf_stepError, if_pos hidx]
        rcases hA.2.2.2.2.2 with ⟨h0, hs⟩ | ⟨_, hs⟩
        · rcases Option.map_eq_some'.1 hs with ⟨s, hget, _⟩
          rw [h0, hget]; rfl
        · rcases Option.map_eq_some'.1 hs with ⟨s, hget, _⟩
          rw [hget]; rfl
    · exact absurd herr (by rcases hB.2.1 with ⟨_, hc⟩; simp [hc])
    · exact absurd hdone (by simp [hC.1])
  | stepDone index =>
    simp only [validMsg, Bool.and_eq_true, beq_iff_eq, Option.isNone_iff_eq_none,
      Bool.not_eq_true'] at hv
    obtain ⟨⟨hidx, herr⟩, hdone⟩ := hv
    rcases hI with hA | hB | hC
    · obtain ⟨_, _, hlt, hbelow, habove, hcur⟩ := hA
      -- the step being completed exists, so `get?` is `some` there
      have hgetc : ∃ s, m.steps.get? m.currentStep = some s := by
        rcases hcur with ⟨h0, hs⟩ | ⟨_, hs⟩
        · rcases Option.map_eq_some'.1 (h0 ▸ hs) with ⟨s, hget, _⟩
          exact ⟨s, h0 ▸ hget⟩
        · rcases Option.map_eq_some'.1 hs with ⟨s, hget, _⟩
          exact ⟨s, hget⟩
      simp only [update, hidx, modifyStep_length]
      split
      · -- last step completed: phase C
        rename_i hge
        refine Or.inr (Or.inr ⟨rfl, herr, ?_, ?_⟩)
        · simp only [modifyStep_length]
          omega
        · intro i hi
          simp only at hi
          simp only [statusOf, modifyStep_get?]
          rcases hgetc with ⟨s, hs⟩
          by_cases hij : m.currentStep = i
          · rw [if_pos hij, ← hij, hs]; rfl
          · rw [if_neg hij]
            have : i < m.currentStep := by omega
            exact hbelow i this
      · -- more steps remain: phase A with the next step running
        rename_i hlt2
        refine Or.inl ⟨hdone, herr, ?_, ?_, ?_, ?_⟩
        · show m.currentStep + 1 < (modifyStep (modifyStep m.steps m.currentStep (setStat .done))
            (m.currentStep + 1) (setStat .running)).length
          rw [modifyStep_length, modifyStep_length]
          omega
        · intro i hi
          have hi' : i < m.currentStep + 1 := hi
          show ((modifyStep (modifyStep m.steps m.currentStep (setStat .done))
            (m.currentStep + 1) (setStat .running)).get? i).map Step.status = some .done
          rw [modifyStep_get?, modifyStep_get?]
          rcases hgetc with ⟨s, hs⟩
          rw [if_neg (by omega : ¬ m.currentStep + 1 = i)]
          by_cases h2 : m.currentStep = i
          · rw [if_pos h2, ← h2, hs]; rfl
          · rw [if_neg h2]
            exact hbelow i (by omega)
        · intro i h1 h2
          have h1' : m.currentStep + 1 < i := h1
          have h2' : i < m.steps.length := by
            calc i < (modifyStep (modifyStep m.steps m.currentStep (setStat .done))
                      (m.currentStep + 1) (setStat .running)).length := h2
              _ = m.steps.length := by rw [modifyStep_length, modifyStep_length]
          show ((modifyStep (modifyStep m.steps m.currentStep (setStat .done))
            (m.currentStep + 1) (setStat .running)).get? i).map Step.status = some .pending
          rw [modifyStep_get?, modifyStep_get?]
          rw [if_neg (by omega : ¬ m.currentStep + 1 = i), if_neg (by omega : ¬ m.currentStep = i)]
          exact habove i (by omega) h2'
        · refine Or.inr ⟨Nat.succ_pos m.currentStep, ?_⟩
          show ((modifyStep (modifyStep m.steps m.currentStep (setStat .done))
            (m.currentStep + 1) (setStat .running)).get? (m.currentStep + 1)).map Step.status = some .running
          rw [modifyStep_get?, if_pos rfl, modifyStep_get?]
          have hpend := habove (m.currentStep + 1) (by omega) (by omega)
          rcases Option.map_eq_some'.1 hpend with ⟨s, hget, _⟩
          rw [if_neg (by omega : ¬ m.currentStep = m.currentStep + 1), hget]
          rfl
    · exact absurd herr (by rcases hB.2.1 with ⟨_, hc⟩; simp [hc])
    · exact absurd hdone (by simp [hC.1])

theorem reachable_inv (m : Model) (h : Reachable m) : Inv m := by
  induction h with
  | init p c => exact inv_initial p c
  | step hr hv ih => exact inv_update _ _ ih hv

/-! ### Substring lemmas -/

theorem charsStartWith_refl_append (p y : List Char) :
    charsStartWith (p ++ y) p = true := by
  induction p with
  | nil => cases y <;> rfl
  | cons c cs ih => simp [charsStartWith, ih]

theorem charsContain_nil_pat (s : List Char) : charsContain s [] = true := by
  cases s <;> rfl

theorem charsContain_of_right (a b pat : List Char)
    (h : charsContain b pat = true) : charsContain (a ++ b) pat = true := by
  induction a with
  | nil => simpa using h
  | cons c cs ih => simp [charsContain, ih]

theorem charsStartWith_extend (s y pat : List Char)
    (h : charsStartWith s pat = true) : charsStartWith (s ++ y) pat = true := by
  induction s generalizing pat with
  | nil =>
    cases pat with
    | nil => cases y <;> rfl
    | cons p ps => exact absurd h (by simp [charsStartWith])
  | cons c cs ih =>
    cases pat with
    | nil => rfl
    | cons p ps =>
      simp only [charsStartWith, Bool.and_eq_true] at h ⊢
      exact ⟨h.1, ih ps h.2⟩

theorem charsContain_of_left (a b pat : List Char)
    (h : charsContain a pat = true) : charsContain (a ++ b) pat = true := by
  induction a with
  | nil =>
    cases pat with
    | nil => exact charsContain_nil_pat b
    | cons p ps => exact absurd h (by simp [charsContain, charsStartWith])
  | cons c cs ih =>
    simp only [charsContain, Bool.or_eq_true] at h
    rcases h with h | h
    · simp only [List.cons_append, charsContain, Bool.or_eq_true]
      exact Or.inl (charsStartWith_extend _ b _ h)
    · simp only [List.cons_append, charsContain, Bool.or_eq_true]
      exact Or.inr (ih h)

theorem str_data_append (a b : String) : (a ++ b).data = a.data ++ b.data := by
  cases a; cases b; rfl

theorem strContains_refl_append (p y : String) : strContains (p ++ y) p = true := by
  unfold strContains
  rw [str_data_append]
  cases hp : p.data with
  | nil => exact charsContain_nil_pat _
  | cons c cs =>
    simp only [charsContain, List.cons_append, Bool.or_eq_true]
    exact Or.inl (by
      have := charsStartWith_refl_append (c :: cs) y.data
      simpa using this)

theorem strContains_mono_left (x s pat : String)
    (h : strContains s pat = true) : strContains (x ++ s) pat = true := by
  unfold strContains at h ⊢
  rw [str_data_append]
  exact charsContain_of_right _ _ _ h

theorem strContains_mono_right (s y pat : String)
    (h : strContains s pat = true) : strContains (s ++ y) pat = true := by
  unfold strContains at h ⊢
  rw [str_data_append]
  exact charsContain_of_left _ _ _ h

/-! ### Log-buffer lemmas -/

theorem appendLog_eq (b : List String) (l : String) (h : b.length ≤ 3) :
    appendLog b l = (b ++ [l]).drop ((b ++ [l]).length - 3) := by
  show (if (b ++ [l]).length > 3 then (b ++ [l]).drop ((b ++ [l]).length - 3) else (b ++ [l]))
      = (b ++ [l]).drop ((b ++ [l]).length - 3)
  split
  · rfl
  · rename_i hle
    have h0 : (b ++ [l]).length - 3 = 0 := by
      simp only [List.length_append, List.length_singleton] at hle ⊢
      omega
    rw [h0, List.drop_zero]

theorem appendLog_length (b : List String) (l : String) (h : b.length ≤ 3) :
    (appendLog b l).length ≤ 3 := by
  rw [appendLog_eq b l h]
  simp only [List.length_drop, List.length_append, List.length_singleton]
  omega

theorem foldl_appendLog (ls : List String) (b : List String) (h : b.length ≤ 3) :
    ls.foldl appendLog b = (b ++ ls).drop ((b ++ ls).length - 3) := by
  induction ls generalizing b with
  | nil =>
    simp only [List.foldl_nil, List.append_nil]
    rw [(by omega : b.length - 3 = 0), List.drop_zero]
  | cons l ls ih =>
    have hlen : (appendLog b l).length ≤ 3 := appendLog_length b l h
    rw [List.foldl_cons, ih (appendLog b l) hlen, appendLog_eq b l h]
    have hd : (b ++ [l]).length - 3 ≤ (b ++ [l]).length := Nat.sub_le _ _
    rw [← List.drop_append_of_le_length hd, List.drop_drop]
    have hL : (List.drop ((b ++ [l]).length - 3) (b ++ [l] ++ ls)).length
        = (b ++ [l] ++ ls).length - ((b ++ [l]).length - 3) := List.length_drop _ _
    rw [hL]
    have harith : ((b ++ [l]).length - 3)
          + ((b ++ [l] ++ ls).length - ((b ++ [l]).length - 3) - 3)
        = (b ++ [l] ++ ls).length - 3 := by
      simp only [List.length_append, List.length_singleton]
      omega
    rw [harith, List.append_assoc, List.singleton_append]

/-- Under the invariant, an index whose status is `running` must be the
current one. -/
theorem running_at_current (m : Model) (hI : Inv m) (k : Nat)
    (hk : statusOf m k = some .running) : k = m.currentStep := by
  rcases hI with hA | hB | hC
  · rcases Nat.lt_trichotomy k m.currentStep with h | h | h
    · exact absurd ((hA.2.2.2.1 k h).symm.trans hk) (by simp)
    · exact h
    · by_cases hlen : k < m.steps.length
      · exact absurd ((hA.2.2.2.2.1 k h hlen).symm.trans hk) (by simp)
      · have hnone : m.steps.get? k = none :=
          List.get?_eq_none.2 (by omega)
        rw [statusOf, hnone] at hk
        exact absurd hk (by simp)
  · rcases Nat.lt_trichotomy k m.currentStep with h | h | h
    · exact absurd ((hB.2.2.2.1 k h).symm.trans hk) (by simp)
    · exact h
    · by_cases hlen : k < m.steps.length
      · exact absurd ((hB.2.2.2.2.1 k h hlen).symm.trans hk) (by simp)
      · have hnone : m.steps.get? k = none :=
          List.get?_eq_none.2 (by omega)
        rw [statusOf, hnone] at hk
        exact absurd hk (by simp)
  · by_cases hlen : k < m.steps.length
    · have := hC.2.2.2 k (hC.2.2.1 ▸ hlen)
      exact absurd (this.symm.trans hk) (by simp)
    · have hnone : m.steps.get? k = none :=
        List.get?_eq_none.2 (by omega)
      rw [statusOf, hnone] at hk
      exact absurd hk (by simp)

/-- C1: in every reachable runner state, at most one step is `running`,
every step before `currentStep` is `done`, and every step after
`currentStep` is still `pending` (in particular, after a fatal error the
steps beyond the failed one stay `pending`). -/
theorem claim_runner_invariant (m : Model) (hr : Reachable m) :
    (∀ i j, statusOf m i = some .running → statusOf m j = some .running → i = j) ∧
    (∀ i, i < m.currentStep → statusOf m i = some .done) ∧
    (∀ i, m.currentStep < i → i < m.steps.length → statusOf m i = some .pending) := by
  have hI := reachable_inv m hr
  refine ⟨?_, ?_, ?_⟩
  · intro i j hi hj
    rw [running_at_current m hI i hi, running_at_current m hI j hj]
  · intro i hi
    rcases hI with hA | hB | hC
    · exact hA.2.2.2.1 i hi
    · exact hB.2.2.2.1 i hi
    · exact hC.2.2.2 i hi
  · intro i h1 h2
    rcases hI with hA | hB | hC
    · exact hA.2.2.2.2.1 i h1 h2
    · exact hB.2.2.2.2.1 i h1 h2
    · rw [hC.2.2.1] at h1
      omega

/-- A state two valid events into a run: step 0 completed, then step 1
failed. -/
def exErrModel : Model :=
  update (update initialModel (Msg.stepDone 0)) (Msg.stepError 1 "boom")

/-- Witness for C1 at a concrete reachable state. -/
theorem claim_runner_invariant_witness :
    statusOf exErrModel 0 = some Status.done ∧
    statusOf exErrModel 2 = some Status.pending := by
  have h := claim_runner_invariant exErrModel
    (Reachable.step (Reachable.step (Reachable.init defaultPorts defaultConfig)
      (by decide)) (by decide))
  exact ⟨h.2.1 0 (by decide), h.2.2 2 (by decide) (by decide)⟩

/-- C2 (amended): each step's status only moves forward along
`pending → running → {done, error}` — except step 0, which `Init`
dispatches without marking it `running`, so step 0 moves directly
`pending → {done, error}` and is never `running` at all.  No status
changes after a terminal one (every edge below starts from `pending` or
`running`), and each edge is taken at most once since the statuses only
move forward. -/
theorem claim_step_lifecycle (m : Model) (msg : Msg) (hr : Reachable m)
    (hv : validMsg m msg = true) :
    (∀ i,
      statusOf (update m msg) i = statusOf m i ∨
      (0 < i ∧ statusOf m i = some .pending ∧
        statusOf (update m msg) i = some .running) ∨
      (statusOf m i = some .running ∧
        (statusOf (update m msg) i = some .done ∨
         statusOf (update m msg) i = some .error)) ∨
      (i = 0 ∧ statusOf m i = some .pending ∧
        (statusOf (update m msg) i = some .done ∨
         statusOf (update m msg) i = some .error))) ∧
    statusOf m 0 ≠ some .running := by
  have hI := reachable_inv m hr
  have hnot0 : statusOf m 0 ≠ some .running := by
    intro h0
    have h0c := running_at_current m hI 0 h0
    rcases hI with hA | hB | hC
    · rcases hA.2.2.2.2.2 with ⟨hz, hs⟩ | ⟨hpos, _⟩
      · exact absurd (hs.symm.trans h0) (by simp)
      · omega
    · have herrst := hB.2.2.2.2.2
      rw [← h0c] at herrst
      exact absurd (herrst.symm.trans h0) (by simp)
    · rw [hC.2.2.1] at h0c
      by_cases hlen : 0 < m.steps.length
      · rw [hC.2.2.2 0 (by omega)] at h0
        exact absurd h0 (by simp)
      · have hnone : m.steps.get? 0 = none := List.get?_eq_none.2 (by omega)
        rw [statusOf, hnone] at h0
        exact absurd h0 (by simp)
  refine ⟨?_, hnot0⟩
  intro i
  cases msg with
  | tick => exact Or.inl rfl
  | logUpdate index line => exact Or.inl (statusOf_logUpdate m index line i)
  | stepError index cse =>
    simp only [validMsg, Bool.and_eq_true, beq_iff_eq, Option.isNone_iff_eq_none,
      Bool.not_eq_true'] at hv
    obtain ⟨⟨hidx, herr⟩, hdone⟩ := hv
    rcases hI with hA | hB | hC
    · by_cases hij : index = i
      · rcases hA.2.2.2.2.2 with ⟨hz, hs⟩ | ⟨hpos, hs⟩
        · -- current step is 0 and still pending: edge pending → error at i = 0
          have hi0 : i = 0 := by omega
          refine Or.inr (Or.inr (Or.inr ⟨hi0, by rw [hi0]; exact hs, Or.inr ?_⟩))
          rw [statusOf_stepError, if_pos hij]
          rcases Option.map_eq_some'.1 (hi0 ▸ hs) with ⟨s, hget, _⟩
          rw [hget]
          rfl
        · -- current step running: edge running → error
          refine Or.inr (Or.inr (Or.inl ⟨by rw [← hidx] at hs; exact hij ▸ hs, Or.inr ?_⟩))
          rw [statusOf_stepError, if_pos hij]
          have hs' : statusOf m i = some .running := by
            rw [← hidx] at hs
            exact hij ▸ hs
          rcases Option.map_eq_some'.1 hs' with ⟨s, hget, _⟩
          rw [hget]
          rfl
      · exact Or.inl (by rw [statusOf_stepError, if_neg hij])
    · exact absurd herr (by rcases hB.2.1 with ⟨_, hc⟩; simp [hc])
    · exact absurd hdone (by simp [hC.1])
  | stepDone index =>
    simp only [validMsg, Bool.and_eq_true, beq_iff_eq, Option.isNone_iff_eq_none,
      Bool.not_eq_true'] at hv
    obtain ⟨⟨hidx, herr⟩, hdone⟩ := hv
    rcases hI with hA | hB | hC
    · obtain ⟨_, _, hlt, hbelow, habove, hcur⟩ := hA
      have hgetc : ∃ s, m.steps.get? m.currentStep = some s := by
        rcases hcur with ⟨h0, hs⟩ | ⟨_, hs⟩
        · rcases Option.map_eq_some'.1 hs with ⟨s, hget, _⟩
          exact ⟨s, h0 ▸ hget⟩
        · rcases Option.map_eq_some'.1 hs with ⟨s, hget, _⟩
          exact ⟨s, hget⟩
      rcases hgetc with ⟨sc, hsc⟩
      simp only [update, hidx, modifyStep_length]
      split
      · -- final step: only index `currentStep` changes, to done
        by_cases hij : m.currentStep = i
        · have hnew : ((modifyStep m.steps m.currentStep (setStat .done)).get? i).map Step.status
              = some .done := by
            rw [modifyStep_get?, if_pos hij, ← hij, hsc]
            rfl
          rcases hcur with ⟨h0, hs⟩ | ⟨hpos, hs⟩
          · exact Or.inr (Or.inr (Or.inr ⟨by omega, by rw [← hij, h0]; exact h0 ▸ hs,
              Or.inl hnew⟩))
          · exact Or.inr (Or.inr (Or.inl ⟨hij ▸ hs, Or.inl hnew⟩))
        · refine Or.inl ?_
          show ((modifyStep m.steps m.currentStep (setStat .done)).get? i).map Step.status
            = statusOf m i
          rw [modifyStep_get?, if_neg hij]
          rfl
      · -- middle step: index `currentStep` → done, `currentStep + 1` → running
        rename_i hlt2
        by_cases hij1 : m.currentStep + 1 = i
        · -- next step: pending → running
          have hold : statusOf m i = some .pending :=
            habove i (by omega) (by omega)
          rcases Option.map_eq_some'.1 hold with ⟨s, hget, _⟩
          refine Or.inr (Or.inl ⟨by omega, hold, ?_⟩)
          show ((modifyStep (modifyStep m.steps m.currentStep (setStat .done))
            (m.currentStep + 1) (setStat .running)).get? i).map Step.status = some .running
          rw [modifyStep_get?, if_pos hij1, modifyStep_get?,
            if_neg (by omega : ¬ m.currentStep = i), hget]
          rfl
        · by_cases hij : m.currentStep = i
          · -- completed step: pending/running → done
            have hnew : ((modifyStep (modifyStep m.steps m.currentStep (setStat .done))
                (m.currentStep + 1) (setStat .running)).get? i).map Step.status
                = some .done := by
              rw [modifyStep_get?, if_neg hij1, modifyStep_get?, if_pos hij, ← hij, hsc]
              rfl
            rcases hcur with ⟨h0, hs⟩ | ⟨hpos, hs⟩
            · exact Or.inr (Or.inr (Or.inr ⟨by omega, by rw [← hij, h0]; exact h0 ▸ hs,
                Or.inl hnew⟩))
            · exact Or.inr (Or.inr (Or.inl ⟨hij ▸ hs, Or.inl hnew⟩))
          · refine Or.inl ?_
            show ((modifyStep (modifyStep m.steps m.currentStep (setStat .done))
              (m.currentStep + 1) (setStat .running)).get? i).map Step.status
              = statusOf m i
            rw [modifyStep_get?, if_neg hij1, modifyStep_get?, if_neg hij]
            rfl
    · exact absurd herr (by rcases hB.2.1 with ⟨_, hc⟩; simp [hc])
    · exact absurd hdone (by simp [hC.1])

/-- Counterexample to C2 as stated: in the valid run that consists of
startup followed by the success report of step 0's action, step 0
reaches `done` while the only earlier state of the run had it `pending`
— it was never `running`, because `Init` dispatches step 0's action
without any status transition. -/
theorem claim_step0_skips_running_cex :
    validMsg initialModel (Msg.stepDone 0) = true ∧
    statusOf initialModel 0 = some Status.pending ∧
    statusOf initialModel 0 ≠ some Status.running ∧
    statusOf (update initialModel (Msg.stepDone 0)) 0 = some Status.done := by
  refine ⟨by decide, by decide, by decide, by decide⟩

/-- Witness for C2 (amended) at a concrete reachable state and event. -/
theorem claim_step_lifecycle_witness :
    (statusOf (update initialModel (Msg.stepDone 0)) 1 = statusOf initialModel 1 ∨
      (0 < 1 ∧ statusOf initialModel 1 = some Status.pending ∧
        statusOf (update initialModel (Msg.stepDone 0)) 1 = some Status.running) ∨
      (statusOf initialModel 1 = some Status.running ∧
        (statusOf (update initialModel (Msg.stepDone 0)) 1 = some Status.done ∨
         statusOf (update initialModel (Msg.stepDone 0)) 1 = some Status.error)) ∨
      (1 = 0 ∧ statusOf initialModel 1 = some Status.pending ∧
        (statusOf (update initialModel (Msg.stepDone 0)) 1 = some Status.done ∨
         statusOf (update initialModel (Msg.stepDone 0)) 1 = some Status.error))) ∧
    statusOf initialModel 0 ≠ some Status.running := by
  have h := claim_step_lifecycle initialModel (Msg.stepDone 0)
    (Reachable.init defaultPorts defaultConfig) (by decide)
  exact ⟨h.1 1, h.2⟩

/-- Once `m.err` is set, the only events the dispatch discipline still
allows are log lines and ticks, so the error, the current index, and the
statuses are all frozen for the remainder of the run. -/
theorem trace_frozen (tr : List Msg) (m : Model) (c : String) (hm : m.err = some c)
    (ht : validTrace m tr = true) :
    (runTrace m tr).err = some c ∧
    (runTrace m tr).currentStep = m.currentStep ∧
    (runTrace m tr).steps.length = m.steps.length ∧
    ∀ j, statusOf (runTrace m tr) j = statusOf m j := by
  induction tr generalizing m with
  | nil => exact ⟨hm, rfl, rfl, fun _ => rfl⟩
  | cons msg rest ih =>
    simp only [validTrace, Bool.and_eq_true] at ht
    obtain ⟨hv, hrest⟩ := ht
    have hstep : runTrace m (msg :: rest) = runTrace (update m msg) rest := rfl
    cases msg with
    | stepDone index => exact absurd hv (by simp [validMsg, hm])
    | stepError index cse => exact absurd hv (by simp [validMsg, hm])
    | tick =>
      rw [hstep]
      exact ih m hm hrest
    | logUpdate index line =>
      have h1 := ih (update m (.logUpdate index line)) (by simp [update, hm]) hrest
      rw [hstep]
      refine ⟨h1.1, h1.2.1, ?_, ?_⟩
      · rw [h1.2.2.1, update_steps_length]
      · intro j
        rw [h1.2.2.2 j, statusOf_logUpdate]

/-- C3: when the in-flight action of step `i` reports failure with cause
`c`, the runner stores exactly that cause in `m.err` (so the stored
message contains the reported cause), marks step `i` `error`, and — for
the entire remainder of the run under the dispatch discipline — every
step beyond `i` keeps status `pending`. -/
theorem claim_fatal_error_halts (m : Model) (i : Nat) (c : String) (tr : List Msg)
    (hr : Reachable m) (hv : validMsg m (.stepError i c) = true)
    (ht : validTrace (update m (.stepError i c)) tr = true) :
    (runTrace (update m (.stepError i c)) tr).err = some c ∧
    statusOf (runTrace (update m (.stepError i c)) tr) i = some .error ∧
    ∀ j, i < j → j < (runTrace (update m (.stepError i c)) tr).steps.length →
      statusOf (runTrace (update m (.stepError i c)) tr) j = some .pending := by
  simp only [validMsg, Bool.and_eq_true, beq_iff_eq, Option.isNone_iff_eq_none,
    Bool.not_eq_true'] at hv
  obtain ⟨⟨hidx, herr⟩, hdone⟩ := hv
  have hA : InvA m := by
    rcases reachable_inv m hr with hA | hB | hC
    · exact hA
    · exact absurd herr (by rcases hB.2.1 with ⟨_, hc⟩; simp [hc])
    · exact absurd hdone (by simp [hC.1])
  have herr1 : (update m (.stepError i c)).err = some c := by simp [update]
  have hfro := trace_frozen tr _ c herr1 ht
  refine ⟨hfro.1, ?_, ?_⟩
  · rw [hfro.2.2.2 i, statusOf_stepError, if_pos rfl]
    have hgetc : ∃ s, m.steps.get? m.currentStep = some s := by
      rcases hA.2.2.2.2.2 with ⟨h0, hs⟩ | ⟨_, hs⟩
      · rcases Option.map_eq_some'.1 hs with ⟨s, hget, _⟩
        exact ⟨s, h0 ▸ hget⟩
      · rcases Option.map_eq_some'.1 hs with ⟨s, hget, _⟩
        exact ⟨s, hget⟩
    rcases hgetc with ⟨s, hget⟩
    rw [hidx, hget]
    rfl
  · intro j h1 h2
    rw [hfro.2.2.1, update_steps_length] at h2
    rw [hfro.2.2.2 j, statusOf_stepError, if_neg (by omega : ¬ i = j)]
    exact hA.2.2.2.2.1 j (by omega) h2

/-- Witness for C3: step 0's action fails at startup with a concrete
cause; after a tick and a stray log line the error is still recorded and
steps 1–6 are still pending. -/
theorem claim_fatal_error_halts_witness :
    (runTrace (update initialModel (.stepError 0 "executable not found"))
        [Msg.tick, Msg.logUpdate 0 "x"]).err = some "executable not found" ∧
    statusOf (runTrace (update initialModel (.stepError 0 "executable not found"))
        [Msg.tick, Msg.logUpdate 0 "x"]) 3 = some Status.pending := by
  have h := claim_fatal_error_halts initialModel 0 "executable not found"
    [Msg.tick, Msg.logUpdate 0 "x"]
    (Reachable.init defaultPorts defaultConfig) (by decide) (by decide)
  exact ⟨h.1, h.2.2 3 (by decide) (by decide)⟩

/-- C8: for every sequence of appended log lines, the bounded buffer of
`Model.Update`'s `logUpdateMsg` branch (`appendLog`, capacity 3, oldest
evicted first) holds at most 3 lines and always equals the most recent
`min(n, 3)` lines in arrival order. -/
theorem claim_log_buffer (lines : List String) :
    (lines.foldl appendLog []).length ≤ 3 ∧
    lines.foldl appendLog [] = lines.drop (lines.length - 3) := by
  have h := foldl_appendLog lines [] (by simp)
  simp only [List.nil_append] at h
  refine ⟨?_, h⟩
  rw [h, List.length_drop]
  omega

/-- Full characterisation of the polling loop, for an arbitrary starting
probe index. -/
theorem waitForHealthyAux_spec (health : Nat → Bool) (fuel start : Nat) :
    (waitForHealthyAux health start fuel).2 ≤ fuel ∧
    ((waitForHealthyAux health start fuel).1 = false →
      (waitForHealthyAux health start fuel).2 = fuel ∧
      ∀ j, j < fuel → health (start + j) = false) ∧
    ((waitForHealthyAux health start fuel).1 = true →
      1 ≤ (waitForHealthyAux health start fuel).2 ∧
      health (start + ((waitForHealthyAux health start fuel).2 - 1)) = true ∧
      ∀ j, j < (waitForHealthyAux health start fuel).2 - 1 →
        health (start + j) = false) ∧
    ((∀ j, j < fuel → health (start + j) = false) →
      (waitForHealthyAux health start fuel).1 = false) := by
  induction fuel generalizing start with
  | zero =>
    refine ⟨Nat.le_refl 0, fun _ => ⟨rfl, fun j hj => absurd hj (by omega)⟩,
      fun habs => absurd habs (by simp [waitForHealthyAux]), fun _ => rfl⟩
  | succ k ih =>
    by_cases hs : health start = true
    · have hres : waitForHealthyAux health start (k + 1) = (true, 1) := by
        simp [waitForHealthyAux, hs]
      rw [hres]
      refine ⟨by omega, fun habs => absurd habs (by simp), ?_, ?_⟩
      · intro _
        refine ⟨by omega, ?_, fun j hj => absurd hj (by omega)⟩
        simpa using hs
      · intro hall
        exact absurd (hall 0 (by omega)) (by simpa using hs)
    · have hs' : health start = false := by
        cases hh : health start
        · rfl
        · exact absurd hh hs
      have hres : waitForHealthyAux health start (k + 1)
          = ((waitForHealthyAux health (start + 1) k).1,
             (waitForHealthyAux health (start + 1) k).2 + 1) := by
        simp [waitForHealthyAux, hs']
      have ihs := ih (start + 1)
      rw [hres]
      refine ⟨by have := ihs.1; omega, ?_, ?_, ?_⟩
      · intro hfail
        obtain ⟨hp, hall⟩ := ihs.2.1 hfail
        refine ⟨by omega, ?_⟩
        intro j hj
        cases j with
        | zero => simpa using hs'
        | succ j' =>
          have : start + (j' + 1) = (start + 1) + j' := by omega
          rw [this]
          exact hall j' (by omega)
      · intro hok
        obtain ⟨hp1, hhit, hall⟩ := ihs.2.2.1 hok
        refine ⟨by omega, ?_, ?_⟩
        · have harg : start + ((waitForHealthyAux health (start + 1) k).2 + 1 - 1)
              = (start + 1) + ((waitForHealthyAux health (start + 1) k).2 - 1) := by
            omega
          rw [harg]
          exact hhit
        · intro j hj
          cases j with
          | zero => simpa using hs'
          | succ j' =>
            have : start + (j' + 1) = (start + 1) + j' := by omega
            rw [this]
            exact hall j' (by omega)
      · intro hall
        refine ihs.2.2.2 ?_
        intro j hj
        have : (start + 1) + j = start + (j + 1) := by omega
        rw [this]
        exact hall (j + 1) (by omega)

/-- C4: `waitForHealthy(url, timeoutSeconds)` makes at most
`timeoutSeconds` probes; when it returns `false` it made exactly
`timeoutSeconds` probes, all unsuccessful; when it returns `true`, the
last probe made is the first successful one (everything before it
failed); and if no probe within the budget would succeed it returns
`false`. -/
theorem claim_waitForHealthy (health : Nat → Bool) (timeoutSeconds : Nat) :
    (waitForHealthy health timeoutSeconds).2 ≤ timeoutSeconds ∧
    ((waitForHealthy health timeoutSeconds).1 = false →
      (waitForHealthy health timeoutSeconds).2 = timeoutSeconds ∧
      ∀ j, j < timeoutSeconds → health j = false) ∧
    ((waitForHealthy health timeoutSeconds).1 = true →
      1 ≤ (waitForHealthy health timeoutSeconds).2 ∧
      health ((waitForHealthy health timeoutSeconds).2 - 1) = true ∧
      ∀ j, j < (waitForHealthy health timeoutSeconds).2 - 1 → health j = false) ∧
    ((∀ j, j < timeoutSeconds → health j = false) →
      (waitForHealthy health timeoutSeconds).1 = false) := by
  have h := waitForHealthyAux_spec health timeoutSeconds 0
  simpa [waitForHealthy] using h

/-- Witness for C4 with a 3-probe budget: a target healthy from the 2nd
probe on yields `true` after exactly 2 probes; a never-healthy target
yields `false` after exactly 3 probes. -/
theorem claim_waitForHealthy_witness :
    (waitForHealthy (fun k => k == 1) 3).1 = true ∧
    (waitForHealthy (fun k => k == 1) 3).2 = 2 ∧
    (waitForHealthy (fun _ => false) 3).1 = false ∧
    (waitForHealthy (fun _ => false) 3).2 = 3 := by
  have h1 := claim_waitForHealthy (fun k => k == 1) 3
  have h2 := claim_waitForHealthy (fun _ => false) 3
  have hfalse : (waitForHealthy (fun _ => false) 3).1 = false :=
    h2.2.2.2 (fun _ _ => rfl)
  have htrue : (waitForHealthy (fun k => k == 1) 3).1 = true := by
    cases hb : (waitForHealthy (fun k => (k == 1 : Bool)) 3).1
    · have := (h1.2.1 hb).2 1 (by omega)
      exact absurd this (by decide)
    · rfl
  refine ⟨htrue, ?_, hfalse, (h2.2.1 hfalse).1⟩
  have h3 := h1.2.2.1 htrue
  have hle := h1.1
  -- the probe count is 2: probe index (count - 1) succeeded, and the
  -- oracle succeeds only at index 1
  have hcount := h3.2.1
  have : (waitForHealthy (fun k => (k == 1 : Bool)) 3).2 - 1 = 1 := by
    by_contra hne
    simp only [beq_iff_eq] at hcount
    exact hne hcount
  omega

/-- C5: the artifact-pull step polls `ollama list` at most 3 times for
the marker substring `nomic-embed-text`; if any of the (up to 3) polls
hits, it completes without running `ollama pull`; otherwise it runs
`ollama pull` exactly once, completing iff the pull succeeds and failing
with the pull's error and output otherwise. -/
theorem claim_pullEmbeddingModel (query : Nat → CmdResult) (fetch : CmdResult) :
    (pullEmbeddingModel query fetch).polls ≤ 3 ∧
    ((∃ k, k < 3 ∧ listPollHit (query k) = true) →
      (pullEmbeddingModel query fetch).outcome = .completed ∧
      (pullEmbeddingModel query fetch).fetchRuns = 0) ∧
    ((∀ k, k < 3 → listPollHit (query k) = false) →
      (pullEmbeddingModel query fetch).fetchRuns = 1 ∧
      (∀ o, fetch = .ok o → (pullEmbeddingModel query fetch).outcome = .completed) ∧
      (∀ e out, fetch = .fail e out →
        (pullEmbeddingModel query fetch).outcome
          = .failed ("failed to pull: " ++ e ++ " - " ++ out))) := by
  by_cases h0 : listPollHit (query 0) = true
  · refine ⟨by simp [pullEmbeddingModel, h0], fun _ => by simp [pullEmbeddingModel, h0], ?_⟩
    intro hall
    exact absurd h0 (by simp [hall 0 (by omega)])
  · have h0' : listPollHit (query 0) = false := by
      cases hh : listPollHit (query 0)
      · rfl
      · exact absurd hh h0
    by_cases h1 : listPollHit (query 1) = true
    · refine ⟨by simp [pullEmbeddingModel, h0', h1],
        fun _ => by simp [pullEmbeddingModel, h0', h1], ?_⟩
      intro hall
      exact absurd h1 (by simp [hall 1 (by omega)])
    · have h1' : listPollHit (query 1) = false := by
        cases hh : listPollHit (query 1)
        · rfl
        · exact absurd hh h1
      by_cases h2 : listPollHit (query 2) = true
      · refine ⟨by simp [pullEmbeddingModel, h0', h1', h2],
          fun _ => by simp [pullEmbeddingModel, h0', h1', h2], ?_⟩
        intro hall
        exact absurd h2 (by simp [hall 2 (by omega)])
      · have h2' : listPollHit (query 2) = false := by
          cases hh : listPollHit (query 2)
          · rfl
          · exact absurd hh h2
        have hmiss : ∀ P : Prop, (∃ k, k < 3 ∧ listPollHit (query k) = true) → P := by
          intro P hex
          rcases hex with ⟨k, hk, hhit⟩
          interval_cases k
          · exact absurd hhit (by simp [h0'])
          · exact absurd hhit (by simp [h1'])
          · exact absurd hhit (by simp [h2'])
        cases hf : fetch with
        | ok o =>
          refine ⟨by simp [pullEmbeddingModel, h0', h1', h2', hf],
            fun hex => hmiss _ hex, fun _ => ⟨by simp [pullEmbeddingModel, h0', h1', h2', hf],
              fun o' _ => by simp [pullEmbeddingModel, h0', h1', h2', hf], ?_⟩⟩
          intro e out habs
          exact absurd habs (by simp)
        | fail e out =>
          refine ⟨by simp [pullEmbeddingModel, h0', h1', h2', hf],
            fun hex => hmiss _ hex, fun _ => ⟨by simp [pullEmbeddingModel, h0', h1', h2', hf],
              ?_, ?_⟩⟩
          · intro o' habs
            exact absurd habs (by simp)
          · intro e' out' hf'
            obtain ⟨he, hout⟩ := CmdResult.fail.inj hf'
            subst he
            subst hout
            simp [pullEmbeddingModel, h0', h1', h2']

/-- Witness for C5: the query never shows the marker, the fetch
succeeds; the step completes with exactly 3 polls and one fetch. -/
theorem claim_pullEmbeddingModel_witness :
    (pullEmbeddingModel (fun _ => CmdResult.ok "no models yet") (CmdResult.ok "pulled")).outcome
      = StepOutcome.completed ∧
    (pullEmbeddingModel (fun _ => CmdResult.ok "no models yet") (CmdResult.ok "pulled")).fetchRuns
      = 1 ∧
    (pullEmbeddingModel (fun _ => CmdResult.ok "no models yet") (CmdResult.ok "pulled")).polls
      ≤ 3 := by
  have h := claim_pullEmbeddingModel (fun _ => CmdResult.ok "no models yet")
    (CmdResult.ok "pulled")
  have hmiss : ∀ k, k < 3 →
      listPollHit ((fun _ => CmdResult.ok "no models yet") k) = false := by
    intro k _
    show listPollHit (CmdResult.ok "no models yet") = false
    decide
  have h3 := h.2.2 hmiss
  exact ⟨h3.2.1 "pulled" rfl, h3.1, h.1⟩

/-- C10: `uvSync` tries the interpreter versions in the fixed order
`3.12`, `3.13`, `3.11`, then unconstrained (`""`); it completes at the
first success, attempting nothing further, and fails only when all four
attempts fail, with the cause built from the last attempt's error and
captured output. -/
theorem claim_uvSync (attempt : String → CmdResult) :
    (∀ o, attempt "3.12" = .ok o → uvSync attempt = ⟨.completed, ["3.12"]⟩) ∧
    (∀ e1 o1 o, attempt "3.12" = .fail e1 o1 → attempt "3.13" = .ok o →
      uvSync attempt = ⟨.completed, ["3.12", "3.13"]⟩) ∧
    (∀ e1 o1 e2 o2 o, attempt "3.12" = .fail e1 o1 → attempt "3.13" = .fail e2 o2 →
      attempt "3.11" = .ok o →
      uvSync attempt = ⟨.completed, ["3.12", "3.13", "3.11"]⟩) ∧
    (∀ e1 o1 e2 o2 e3 o3 o, attempt "3.12" = .fail e1 o1 → attempt "3.13" = .fail e2 o2 →
      attempt "3.11" = .fail e3 o3 → attempt "" = .ok o →
      uvSync attempt = ⟨.completed, ["3.12", "3.13", "3.11", ""]⟩) ∧
    (∀ e1 o1 e2 o2 e3 o3 e4 o4, attempt "3.12" = .fail e1 o1 → attempt "3.13" = .fail e2 o2 →
      attempt "3.11" = .fail e3 o3 → attempt "" = .fail e4 o4 →
      uvSync attempt
        = ⟨.failed ("uv sync failed: " ++ e4 ++ "\n" ++ o4), ["3.12", "3.13", "3.11", ""]⟩) := by
  refine ⟨?_, ?_, ?_, ?_, ?_⟩
  · intro o h12
    simp [uvSync, pythonVersions, uvSyncAux, h12]
  · intro e1 o1 o h12 h13
    simp [uvSync, pythonVersions, uvSyncAux, h12, h13]
  · intro e1 o1 e2 o2 o h12 h13 h11
    simp [uvSync, pythonVersions, uvSyncAux, h12, h13, h11]
  · intro e1 o1 e2 o2 e3 o3 o h12 h13 h11 hnone
    simp [uvSync, pythonVersions, uvSyncAux, h12, h13, h11, hnone]
  · intro e1 o1 e2 o2 e3 o3 e4 o4 h12 h13 h11 hnone
    simp [uvSync, pythonVersions, uvSyncAux, h12, h13, h11, hnone]

/-- Witness for C10: the first two attempts fail, `3.11` succeeds; the
step completes having tried exactly `3.12`, `3.13`, `3.11`. -/
theorem claim_uvSync_witness :
    uvSync (fun v => if v == "3.11" then CmdResult.ok "synced"
        else CmdResult.fail "exit status 1" "resolution failed")
      = ⟨StepOutcome.completed, ["3.12", "3.13", "3.11"]⟩ := by
  exact (claim_uvSync _).2.2.1 "exit status 1" "resolution failed"
    "exit status 1" "resolution failed" "synced" rfl rfl rfl

theorem charsStartWith_refl (p : List Char) : charsStartWith p p = true := by
  have h := charsStartWith_refl_append p []
  simpa using h

theorem strContains_refl (s : String) : strContains s s = true := by
  unfold strContains
  cases h : s.data with
  | nil => rfl
  | cons c cs =>
    simp only [charsContain, Bool.or_eq_true]
    exact Or.inl (charsStartWith_refl (c :: cs))

/-- A string contains every suffix appended to a prefix. -/
theorem strContains_append_self (pre s : String) : strContains (pre ++ s) s = true :=
  strContains_mono_left pre s s (strContains_refl s)

/-- C7 (amended): for the vLLM, LightRAG and Agent launch steps, when
the spawned process never becomes healthy within the step's budget, the
step fails with a cause message that includes the last 5 captured log
lines (`readLastLines`).  The Ollama launch step does NOT share this
property: its timeout cause is the fixed string
`Ollama failed to start (timeout)` with no log content (see the
counterexample). -/
theorem claim_launch_timeout_logs (e : LaunchEnv)
    (h1 : e.initialHealthy = false) (h2 : e.logCreateErr = none)
    (h3 : e.spawnErr = none)
    (hv : (waitForHealthy e.health 300).1 = false)
    (hl : (waitForHealthy e.health 60).1 = false)
    (ha : (waitForHealthy e.health 30).1 = false) :
    ((startVLLM e).outcome
        = .failed ("vLLM timeout. Last logs:\n" ++ readLastLines e.logLines 5) ∧
      strContains ("vLLM timeout. Last logs:\n" ++ readLastLines e.logLines 5)
        (readLastLines e.logLines 5) = true) ∧
    ((startLightRAG e).outcome
        = .failed ("LightRAG timeout. Last logs:\n" ++ readLastLines e.logLines 5) ∧
      strContains ("LightRAG timeout. Last logs:\n" ++ readLastLines e.logLines 5)
        (readLastLines e.logLines 5) = true) ∧
    ((startAgent e).outcome
        = .failed ("Agent timeout. Last logs:\n" ++ readLastLines e.logLines 5) ∧
      strContains ("Agent timeout. Last logs:\n" ++ readLastLines e.logLines 5)
        (readLastLines e.logLines 5) = true) ∧
    (startOllama e).outcome = .failed "Ollama failed to start (timeout)" := by
  refine ⟨⟨?_, strContains_append_self _ _⟩, ⟨?_, strContains_append_self _ _⟩,
    ⟨?_, strContains_append_self _ _⟩, ?_⟩
  · simp [startVLLM, h1, h2, h3, hv]
  · simp [startLightRAG, h1, h2, h3, hl]
  · simp [startAgent, h1, h2, h3, ha]
  · simp [startOllama, h1, h2, h3, ha]

/-- A concrete launch environment whose process starts but never becomes
healthy, with two captured log lines. -/
def exTimeoutEnv : LaunchEnv :=
  { initialHealthy := false, logCreateErr := none, spawnErr := none,
    health := fun _ => false, logLines := ["line one", "line two"] }

/-- Counterexample to C7 as stated: the Ollama launch step's timeout
cause is the fixed message `Ollama failed to start (timeout)`, which
does not contain the captured log tail (`line one\nline two` here) — so
not *every* launch step surfaces the log tail on health timeout. -/
theorem claim_launch_timeout_logs_cex :
    (startOllama exTimeoutEnv).outcome
      = StepOutcome.failed "Ollama failed to start (timeout)" ∧
    readLastLines exTimeoutEnv.logLines 5 = "line one\nline two" ∧
    strContains "Ollama failed to start (timeout)"
      (readLastLines exTimeoutEnv.logLines 5) = false := by
  refine ⟨by decide, by decide, by decide⟩

/-- Witness for C7 (amended) at the concrete never-healthy environment. -/
theorem claim_launch_timeout_logs_witness :
    (startVLLM exTimeoutEnv).outcome
      = StepOutcome.failed ("vLLM timeout. Last logs:\n"
          ++ readLastLines exTimeoutEnv.logLines 5) ∧
    strContains ("vLLM timeout. Last logs:\n" ++ readLastLines exTimeoutEnv.logLines 5)
      (readLastLines exTimeoutEnv.logLines 5) = true := by
  have h := claim_launch_timeout_logs exTimeoutEnv rfl rfl rfl
    (by decide) (by decide) (by decide)
  exact ⟨h.1.1, h.1.2⟩

theorem startOllama_of_healthy (e : LaunchEnv) (h : e.initialHealthy = true) :
    startOllama e = ⟨.completed, 0⟩ := by
  simp [startOllama, h]

theorem startVLLM_of_healthy (e : LaunchEnv) (h : e.initialHealthy = true) :
    startVLLM e = ⟨.completed, 0⟩ := by
  simp [startVLLM, h]

theorem startLightRAG_of_healthy (e : LaunchEnv) (h : e.initialHealthy = true) :
    startLightRAG e = ⟨.completed, 0⟩ := by
  simp [startLightRAG, h]

theorem startAgent_of_healthy (e : LaunchEnv) (h : e.initialHealthy = true) :
    startAgent e = ⟨.completed, 0⟩ := by
  simp [startAgent, h]

/-- One run round at a live state whose action outcome is known. -/
theorem runStep1_go (env : RunEnv) (m : Model) (sp : Nat)
    (hdone : m.done = false) (herr : m.err = none)
    (o : StepOutcome) (n : Nat) (ha : actionResult env m.currentStep = (o, n)) :
    runStep1 env (m, sp) = (update m (outcomeMsg m.currentStep o), sp + n) := by
  simp [runStep1, hdone, herr, ha]

/-- The intermediate states of the all-successful run. -/
def runM1 : Model := update initialModel (Msg.stepDone 0)

def runM2 : Model := update runM1 (Msg.stepDone 1)

def runM3 : Model := update runM2 (Msg.stepDone 2)

def runM4 : Model := update runM3 (Msg.stepDone 3)

def runM5 : Model := update runM4 (Msg.stepDone 4)

def runM6 : Model := update runM5 (Msg.stepDone 5)

def runM7 : Model := update runM6 (Msg.stepDone 6)

/-- C6: every service-launch step whose initial health probe succeeds
returns `completed` without invoking `cmd.Start()` at all; consequently
a run in which the three synchronous provisioning steps succeed and all
four launch steps find their service already healthy ends with
`done = true` (all steps done) and zero service spawns. -/
theorem claim_healthy_shortcircuit (env : RunEnv)
    (h2 : env.ollamaEnv.initialHealthy = true)
    (h4 : env.vllmEnv.initialHealthy = true)
    (h5 : env.lightragEnv.initialHealthy = true)
    (h6 : env.agentEnv.initialHealthy = true)
    (h0 : (uvSync env.uvAttempt).outcome = .completed)
    (h1 : checkInstallOllama env.ollamaPresent env.installResult = .completed)
    (h3 : (pullEmbeddingModel env.listQuery env.fetchResult).outcome = .completed) :
    startOllama env.ollamaEnv = ⟨.completed, 0⟩ ∧
    startVLLM env.vllmEnv = ⟨.completed, 0⟩ ∧
    startLightRAG env.lightragEnv = ⟨.completed, 0⟩ ∧
    startAgent env.agentEnv = ⟨.completed, 0⟩ ∧
    (runAll env).1.done = true ∧
    (runAll env).2 = 0 := by
  have o2 := startOllama_of_healthy env.ollamaEnv h2
  have o4 := startVLLM_of_healthy env.vllmEnv h4
  have o5 := startLightRAG_of_healthy env.lightragEnv h5
  have o6 := startAgent_of_healthy env.agentEnv h6
  have s0 : actionResult env 0 = (.completed, 0) := by
    simp [actionResult, h0]
  have s1 : actionResult env 1 = (.completed, 0) := by
    simp [actionResult, h1]
  have s2 : actionResult env 2 = (.completed, 0) := by
    simp [actionResult, o2]
  have s3 : actionResult env 3 = (.completed, 0) := by
    simp [actionResult, h3]
  have s4 : actionResult env 4 = (.completed, 0) := by
    simp [actionResult, o4]
  have s5 : actionResult env 5 = (.completed, 0) := by
    simp [actionResult, o5]
  have s6 : actionResult env 6 = (.completed, 0) := by
    simp [actionResult, o6]
  have e1 : runStep1 env (initialModel, 0) = (runM1, 0) :=
    (runStep1_go env initialModel 0 rfl rfl _ _ s0).trans rfl
  have e2 : runStep1 env (runM1, 0) = (runM2, 0) :=
    (runStep1_go env runM1 0 rfl rfl _ _ s1).trans rfl
  have e3 : runStep1 env (runM2, 0) = (runM3, 0) :=
    (runStep1_go env runM2 0 rfl rfl _ _ s2).trans rfl
  have e4 : runStep1 env (runM3, 0) = (runM4, 0) :=
    (runStep1_go env runM3 0 rfl rfl _ _ s3).trans rfl
  have e5 : runStep1 env (runM4, 0) = (runM5, 0) :=
    (runStep1_go env runM4 0 rfl rfl _ _ s4).trans rfl
  have e6 : runStep1 env (runM5, 0) = (runM6, 0) :=
    (runStep1_go env runM5 0 rfl rfl _ _ s5).trans rfl
  have e7 : runStep1 env (runM6, 0) = (runM7, 0) :=
    (runStep1_go env runM6 0 rfl rfl _ _ s6).trans rfl
  have hall : runAll env = (runM7, 0) := by
    rw [runAll, e1, e2, e3, e4, e5, e6, e7]
  exact ⟨o2, o4, o5, o6, by rw [hall]; rfl, by rw [hall]⟩

/-- A launch environment for a service that is already healthy. -/
def exHealthyEnv : LaunchEnv :=
  { initialHealthy := true, logCreateErr := none, spawnErr := none,
    health := fun _ => true, logLines := [] }

/-- A whole-run environment in which every provisioning command succeeds
and all four services are already healthy. -/
def exRunEnv : RunEnv :=
  { uvAttempt := fun _ => CmdResult.ok "Resolved 1 package",
    ollamaPresent := true,
    installResult := CmdResult.ok "",
    ollamaEnv := exHealthyEnv,
    listQuery := fun _ => CmdResult.ok "NAME  nomic-embed-text  ...",
    fetchResult := CmdResult.ok "",
    vllmEnv := exHealthyEnv,
    lightragEnv := exHealthyEnv,
    agentEnv := exHealthyEnv }

/-- Witness for C6 at the concrete all-healthy environment. -/
theorem claim_healthy_shortcircuit_witness :
    startOllama exRunEnv.ollamaEnv = ⟨StepOutcome.completed, 0⟩ ∧
    (runAll exRunEnv).1.done = true ∧
    (runAll exRunEnv).2 = 0 := by
  have h := claim_healthy_shortcircuit exRunEnv rfl rfl rfl rfl
    (by decide) (by decide) (by decide)
  exact ⟨h.1, h.2.2.2.2.1, h.2.2.2.2.2⟩

theorem doneFooter_has_agno (p : Ports) :
    strContains (doneFooter p) (serviceURL p.agno) = true := by
  unfold doneFooter
  apply strContains_mono_left
  apply strContains_mono_left
  apply strContains_mono_left
  apply strContains_mono_left
  apply strContains_mono_left
  apply strContains_mono_left
  apply strContains_mono_left
  exact strContains_refl_append _ _

theorem doneFooter_has_lightrag (p : Ports) :
    strContains (doneFooter p) (serviceURL p.lightrag) = true := by
  unfold doneFooter
  apply strContains_mono_left
  apply strContains_mono_left
  apply strContains_mono_left
  apply strContains_mono_left
  apply strContains_mono_left
  apply strContains_mono_left
  apply strContains_mono_left
  apply strContains_mono_left
  apply strContains_mono_left
  apply strContains_mono_left
  exact strContains_refl_append _ _

theorem doneFooter_has_vllm (p : Ports) :
    strContains (doneFooter p) (serviceURL p.vllm) = true := by
  unfold doneFooter
  apply strContains_mono_left
  apply strContains_mono_left
  apply strContains_mono_left
  apply strContains_mono_left
  apply strContains_mono_left
  apply strContains_mono_left
  apply strContains_mono_left
  apply strContains_mono_left
  apply strContains_mono_left
  apply strContains_mono_left
  apply strContains_mono_left
  apply strContains_mono_left
  apply strContains_mono_left
  exact strContains_refl_append _ _

/-- Anything the completion footer contains, the full view of a
completed state contains. -/
theorem view_contains_of_doneFooter (m : Model) (spinnerFrame pat : String)
    (hfoot : viewFooter m = doneFooter m.ports)
    (h : strContains (doneFooter m.ports) pat = true) :
    strContains (view m spinnerFrame) pat = true := by
  unfold view
  rw [hfoot]
  apply strContains_mono_left
  apply strContains_mono_left
  apply strContains_mono_left
  apply strContains_mono_left
  apply strContains_mono_right
  exact h

/-- C9 (amended): whenever the run is complete (`done`, no error), the
rendered view contains the resolved `http://localhost:<port>` endpoint
URL of the web agent, the LightRAG retrieval pipeline, and the vLLM
inference server.  The view does NOT list an endpoint for the fourth
backing service, the Ollama embedding server (see the counterexample). -/
theorem claim_done_view_endpoints (m : Model) (spinnerFrame : String)
    (hdone : m.done = true) (herr : m.err = none) :
    strContains (view m spinnerFrame) (serviceURL m.ports.agno) = true ∧
    strContains (view m spinnerFrame) (serviceURL m.ports.lightrag) = true ∧
    strContains (view m spinnerFrame) (serviceURL m.ports.vllm) = true := by
  have hfoot : viewFooter m = doneFooter m.ports := by
    simp [viewFooter, herr, hdone]
  exact ⟨view_contains_of_doneFooter m spinnerFrame _ hfoot (doneFooter_has_agno m.ports),
    view_contains_of_doneFooter m spinnerFrame _ hfoot (doneFooter_has_lightrag m.ports),
    view_contains_of_doneFooter m spinnerFrame _ hfoot (doneFooter_has_vllm m.ports)⟩

/-- The completed state: all seven steps done, no error, default ports. -/
def doneModel : Model :=
  { steps := initialSteps.map (fun s => { s with status := Status.done }),
    currentStep := 7, done := true, err := none,
    ports := defaultPorts, config := defaultConfig }

section

set_option maxRecDepth 100000
set_option maxHeartbeats 1000000

/-- Counterexample to C9 as stated: in a completed run with the default
ports, the view does not contain the embedding server's endpoint URL
`http://localhost:11434` — only three of the four backing services get
an endpoint line. -/
theorem claim_done_view_endpoints_cex :
    doneModel.done = true ∧ doneModel.err = none ∧
    strContains (view doneModel "") (serviceURL doneModel.ports.ollama) = false := by
  refine ⟨rfl, rfl, by decide⟩

end

/-- Witness for C9 (amended) at the concrete completed state. -/
theorem claim_done_view_endpoints_witness :
    strContains (view doneModel "") (serviceURL doneModel.ports.agno) = true ∧
    strContains (view doneModel "") (serviceURL doneModel.ports.vllm) = true := by
  have h := claim_done_view_endpoints doneModel "" rfl rfl
  exact ⟨h.1, h.2.2⟩

end HoneyRAG
